import Mathlib

/-!
# Verification of the `selectstar` SQL template composer

Shallow embedding of `src/index.ts` (the `selectstar` npm package): a tagged
template-literal composer that turns fragments and parameters into a
parameterized query object `{ text, values }`.

Model of JavaScript values: the composer only distinguishes parameters by the
dispatch in `processParam` — functions, the four kinds of boxed values
(identifier / list / unsafe / subsql), the literal leaf types recognized by
`isLiteral`, and everything else (plain objects, bare arrays).  `JSVal` below
has one constructor per distinguishable class.  A callable parameter is only
ever applied to the fixed `subsql` entry point, so a pure callable is modelled
by the value that application returns (`func result`).
-/

/-- JavaScript values as the composer distinguishes them.

* `str`..`view` are the leaf types accepted by `isLiteral` (`typeof` string /
  number / boolean, `null`, `undefined`, `Date`, `Buffer`, `ArrayBuffer.isView`).
  JS numbers are modelled as integers; `date`/`buffer`/`view` carry opaque
  payloads so that distinct dates or buffers stay distinct.
* `obj` is a plain unrecognized object, `arr` a bare (unboxed) array.
* `boxIdentifier`/`boxList`/`boxRaw`/`boxSubsql` are the four box types
  (`boxRaw` is the source's "unsafe" box; that word is a Lean keyword).
* `func result` is a callable parameter; `result` is the value of applying it
  to the `subsql` entry point, which is the only way the composer calls it. -/
inductive JSVal where
  | str : String → JSVal
  | num : Int → JSVal
  | bool : Bool → JSVal
  | null : JSVal
  | undef : JSVal
  | date : Nat → JSVal
  | buffer : List Nat → JSVal
  | view : List Nat → JSVal
  | obj : JSVal
  | arr : List JSVal → JSVal
  | boxIdentifier : String → JSVal
  | boxList : List JSVal → String → JSVal
  | boxRaw : JSVal → JSVal
  | boxSubsql : List String → List JSVal → JSVal
  | func : JSVal → JSVal

/-- The two errors `process` can raise: `UnsupportedValueType`
(`RangeError: Value ... is not a valid pg literal`) and
`ParameterCountMismatch` (`RangeError: Unexpected additional params: ...`,
carrying the leftover parameters).  The `TypeError`s thrown by `unwrap` and by
the `Array.isArray` entry checks are unreachable in the typed model. -/
inductive SqlError where
  | unsupportedValueType : JSVal → SqlError
  | parameterCountMismatch : List JSVal → SqlError

/-- The output query object `{ text, values }`. -/
structure SqlQueryObject where
  text : String
  values : List JSVal

/-- `escapeIdentifier(str)`: `'"' + str.replace(/"/g, '""') + '"'`.
The global single-character regex replace is embedded character-wise. -/
def escapeIdentifier (s : String) : String :=
  "\"" ++ String.join (s.data.map fun c => if c = '"' then "\"\"" else String.singleton c) ++ "\""

/-- `isLiteral(value)`: true for strings, numbers, booleans, `null`,
`undefined`, `Date`s, `Buffer`s and `ArrayBuffer` views; false for everything
else (plain objects, arrays, functions, boxed values). -/
def isLiteral : JSVal → Bool
  | .str _ => true
  | .num _ => true
  | .bool _ => true
  | .null => true
  | .undef => true
  | .date _ => true
  | .buffer _ => true
  | .view _ => true
  | _ => false

/-- JavaScript string coercion (`text += value`), used when a raw ("unsafe")
box payload is spliced into the text.  Exact for the primitive types; the
coercions of dates, buffers, objects, arrays and functions are host- or
content-dependent, so they are modelled by opaque stand-in strings (the spec
leaves the non-string coercion rule unpinned). -/
def jsToString : JSVal → String
  | .str s => s
  | .num n => toString n
  | .bool b => toString b
  | .null => "null"
  | .undef => "undefined"
  | .date _ => "[Date]"
  | .buffer _ => "[Buffer]"
  | .view _ => "[ArrayBufferView]"
  | .obj => "[object Object]"
  | .arr _ => "[Array]"
  | .boxIdentifier _ => "[object Object]"
  | .boxList _ _ => "[object Object]"
  | .boxRaw _ => "[object Object]"
  | .boxSubsql _ _ => "[object Object]"
  | .func _ => "[Function]"

theorem sizeOf_lt_of_length {α : Type} [SizeOf α] (l : List α) : l.length < sizeOf l := by
  induction l with
  | nil => simp
  | cons a t ih =>
    simp only [List.length_cons, List.cons.sizeOf_spec]
    omega

theorem sizeOf_headD_le (l : List JSVal) : sizeOf (l.headD JSVal.undef) ≤ sizeOf l := by
  cases l with
  | nil => simp [List.headD]
  | cons a t =>
    simp only [List.headD, List.cons.sizeOf_spec]
    omega

theorem sizeOf_headOptD_le (l : List JSVal) :
    sizeOf (l.head?.getD JSVal.undef) ≤ sizeOf l := by
  cases l with
  | nil => simp [List.head?]
  | cons a t =>
    simp only [List.head?, Option.getD_some, List.cons.sizeOf_spec]
    omega

theorem sizeOf_tail_le (l : List JSVal) : sizeOf l.tail ≤ sizeOf l := by
  cases l with
  | nil => simp [List.tail]
  | cons a t =>
    simp only [List.tail, List.cons.sizeOf_spec]
    omega

mutual

/-- The body of the `process` closure's `processParam(param)`, made pure: it
returns the text appended, the values pushed, and the new value of the `index`
cursor.  Dispatch order is that of the source: callable, identifier, list,
raw ("unsafe"), literal, error.

For a callable whose result is a subsql box, the source runs
`process(fragments, params, index)` in a fresh closure, splices `text`,
appends `values`, and advances its own cursor by `index += values.length`. -/
def processParam (param : JSVal) (index : Nat) :
    Except SqlError (String × List JSVal × Nat) :=
  match param with
  | .func result =>
    match result with
    | .boxSubsql fragments params =>
      match process fragments params index with
      | .error e => .error e
      | .ok (t, vs, _) => .ok (t, vs, index + vs.length)
    | r => processParam r index
  | .boxIdentifier v => .ok (escapeIdentifier v, [], index)
  | .boxList items sep => processItems items sep index
  | .boxRaw v => .ok (jsToString v, [], index)
  | p =>
    if isLiteral p then .ok ("$" ++ toString index, [p], index + 1)
    else .error (.unsupportedValueType p)
termination_by sizeOf param
decreasing_by
  all_goals simp_wf
  all_goals try omega
  have := sizeOf_lt_of_length fragments
  omega

/-- The `for` loop in `processParam` over a list box's `items`: each item is
processed in order, with the separator appended after every item but the
last. -/
def processItems (items : List JSVal) (sep : String) (index : Nat) :
    Except SqlError (String × List JSVal × Nat) :=
  match items with
  | [] => .ok ("", [], index)
  | [x] => processParam x index
  | x :: rest =>
    match processParam x index with
    | .error e => .error e
    | .ok (t, vs, i2) =>
      match processItems rest sep i2 with
      | .error e => .error e
      | .ok (t2, vs2, i3) => .ok (t ++ sep ++ t2, vs ++ vs2, i3)
termination_by sizeOf items
decreasing_by
  all_goals simp_wf
  all_goals omega

/-- `process(fragments, params, index)`: append each fragment, and after every
fragment but the last process the paired parameter (an out-of-range JS array
read yields `undefined`, hence `headD .undef`).  At the last fragment, if
parameters remain beyond the slots the fragments provided
(`params.length > fragments.length - 1`), raise `ParameterCountMismatch`
carrying `params.slice(i)`.  An empty fragment array runs the loop zero
times and succeeds with empty output. -/
def process (fragments : List String) (params : List JSVal) (index : Nat) :
    Except SqlError (String × List JSVal × Nat) :=
  match fragments with
  | [] => .ok ("", [], index)
  | [f] =>
    match params with
    | [] => .ok (f, [], index)
    | p :: ps => .error (.parameterCountMismatch (p :: ps))
  | f :: f2 :: rest =>
    match processParam (params.headD .undef) index with
    | .error e => .error e
    | .ok (t, vs, i2) =>
      match process (f2 :: rest) params.tail i2 with
      | .error e => .error e
      | .ok (t2, vs2, i3) => .ok (f ++ t ++ t2, vs ++ vs2, i3)
termination_by sizeOf params + fragments.length
decreasing_by
  all_goals simp_wf
  · have h1 := sizeOf_headOptD_le params
    omega
  · have h1 := sizeOf_tail_le params
    omega

end

mutual

/-- Fuel-indexed mirror of the processor (together with `processItemsFuel` and
`processFuel` below).  It is structurally recursive on the fuel, so concrete
runs reduce by `rfl`; `fuel_sound` transfers any result it produces to the
real processor. -/
def processParamFuel : Nat → JSVal → Nat → Option (Except SqlError (String × List JSVal × Nat))
  | 0, _, _ => none
  | fuel+1, param, index =>
    match param with
    | .func result =>
      match result with
      | .boxSubsql fragments params =>
        match processFuel fuel fragments params index with
        | none => none
        | some (.error e) => some (.error e)
        | some (.ok (t, vs, _)) => some (.ok (t, vs, index + vs.length))
      | r => processParamFuel fuel r index
    | .boxIdentifier v => some (.ok (escapeIdentifier v, [], index))
    | .boxList items sep => processItemsFuel fuel items sep index
    | .boxRaw v => some (.ok (jsToString v, [], index))
    | p =>
      if isLiteral p then some (.ok ("$" ++ toString index, [p], index + 1))
      else some (.error (.unsupportedValueType p))

def processItemsFuel : Nat → List JSVal → String → Nat → Option (Except SqlError (String × List JSVal × Nat))
  | 0, _, _, _ => none
  | fuel+1, items, sep, index =>
    match items with
    | [] => some (.ok ("", [], index))
    | [x] => processParamFuel fuel x index
    | x :: rest =>
      match processParamFuel fuel x index with
      | none => none
      | some (.error e) => some (.error e)
      | some (.ok (t, vs, i2)) =>
        match processItemsFuel fuel rest sep i2 with
        | none => none
        | some (.error e) => some (.error e)
        | some (.ok (t2, vs2, i3)) => some (.ok (t ++ sep ++ t2, vs ++ vs2, i3))

def processFuel : Nat → List String → List JSVal → Nat → Option (Except SqlError (String × List JSVal × Nat))
  | 0, _, _, _ => none
  | fuel+1, fragments, params, index =>
    match fragments with
    | [] => some (.ok ("", [], index))
    | [f] =>
      match params with
      | [] => some (.ok (f, [], index))
      | p :: ps => some (.error (.parameterCountMismatch (p :: ps)))
    | f :: f2 :: rest =>
      match processParamFuel fuel (params.headD .undef) index with
      | none => none
      | some (.error e) => some (.error e)
      | some (.ok (t, vs, i2)) =>
        match processFuel fuel (f2 :: rest) params.tail i2 with
        | none => none
        | some (.error e) => some (.error e)
        | some (.ok (t2, vs2, i3)) => some (.ok (f ++ t ++ t2, vs ++ vs2, i3))

end

/-- Any result of the fuel-indexed mirror is a result of the real
processor. -/
theorem fuel_sound : ∀ fuel : Nat,
    (∀ p i r, processParamFuel fuel p i = some r → processParam p i = r) ∧
    (∀ items sep i r, processItemsFuel fuel items sep i = some r →
      processItems items sep i = r) ∧
    (∀ frags ps i r, processFuel fuel frags ps i = some r → process frags ps i = r) := by
  intro fuel
  induction fuel with
  | zero =>
    refine ⟨fun p i r h => ?_, fun items sep i r h => ?_, fun frags ps i r h => ?_⟩
    · simp [processParamFuel] at h
    · simp [processItemsFuel] at h
    · simp [processFuel] at h
  | succ n ih =>
    obtain ⟨ihp, ihi, ihf⟩ := ih
    refine ⟨fun p i r h => ?_, fun items sep i r h => ?_, fun frags ps i r h => ?_⟩
    · cases p
      case func result =>
        cases result
        case boxSubsql fragments params =>
          cases hf : processFuel n fragments params i with
          | none => simp [processParamFuel, hf] at h
          | some res =>
            cases res with
            | error e =>
              simp [processParamFuel, hf] at h
              subst h
              simp [processParam, ihf _ _ _ _ hf]
            | ok t3 =>
              obtain ⟨t, vs, i2⟩ := t3
              simp [processParamFuel, hf] at h
              subst h
              simp [processParam, ihf _ _ _ _ hf]
        all_goals
          simp only [processParamFuel] at h
          have hr := ihp _ _ _ h
          simpa [processParam, isLiteral] using hr
      case boxIdentifier v =>
        simp [processParamFuel] at h
        subst h
        simp [processParam]
      case boxList items sep =>
        simp only [processParamFuel] at h
        simp only [processParam]
        exact ihi _ _ _ _ h
      case boxRaw v =>
        simp [processParamFuel] at h
        subst h
        simp [processParam]
      all_goals
        simp [processParamFuel, isLiteral] at h
        subst h
        simp [processParam, isLiteral]
    · cases items with
      | nil =>
        simp [processItemsFuel] at h
        subst h
        simp [processItems]
      | cons x rest =>
        cases rest with
        | nil =>
          simp only [processItemsFuel] at h
          simp only [processItems]
          exact ihp _ _ _ h
        | cons y rest2 =>
          cases hx : processParamFuel n x i with
          | none => simp [processItemsFuel, hx] at h
          | some resx =>
            cases resx with
            | error e =>
              simp [processItemsFuel, hx] at h
              subst h
              simp [processItems, ihp _ _ _ hx]
            | ok t3 =>
              obtain ⟨t, vs, i2⟩ := t3
              cases hrest : processItemsFuel n (y :: rest2) sep i2 with
              | none => simp [processItemsFuel, hx, hrest] at h
              | some resr =>
                cases resr with
                | error e =>
                  simp [processItemsFuel, hx, hrest] at h
                  subst h
                  simp [processItems, ihp _ _ _ hx, ihi _ _ _ _ hrest]
                | ok t4 =>
                  obtain ⟨t2, vs2, i3⟩ := t4
                  simp [processItemsFuel, hx, hrest] at h
                  subst h
                  simp [processItems, ihp _ _ _ hx, ihi _ _ _ _ hrest]
    · cases frags with
      | nil =>
        simp [processFuel] at h
        subst h
        simp [process]
      | cons f rest =>
        cases rest with
        | nil =>
          cases ps with
          | nil =>
            simp [processFuel] at h
            subst h
            simp [process]
          | cons p pt =>
            simp [processFuel] at h
            subst h
            simp [process]
        | cons f2 rest2 =>
          cases hx : processParamFuel n (ps.head?.getD .undef) i with
          | none => simp [processFuel, hx] at h
          | some resx =>
            cases resx with
            | error e =>
              simp [processFuel, hx] at h
              subst h
              have hp := ihp _ _ _ hx
              simp [process, hp]
            | ok t3 =>
              obtain ⟨t, vs, i2⟩ := t3
              cases hrest : processFuel n (f2 :: rest2) ps.tail i2 with
              | none => simp [processFuel, hx, hrest] at h
              | some resr =>
                cases resr with
                | error e =>
                  simp [processFuel, hx, hrest] at h
                  subst h
                  have hp := ihp _ _ _ hx
                  simp [process, hp, ihf _ _ _ _ hrest]
                | ok t4 =>
                  obtain ⟨t2, vs2, i3⟩ := t4
                  simp [processFuel, hx, hrest] at h
                  subst h
                  have hp := ihp _ _ _ hx
                  simp [process, hp, ihf _ _ _ _ hrest]

/-- JS `string.split("\n")`, embedded character-wise (the separator is a
single character): `""` splits to `[""]`, and every `'\n'` starts a new
piece. -/
def splitNl : List Char → List (List Char)
  | [] => [[]]
  | c :: cs =>
    if c = '\n' then [] :: splitNl cs
    else
      match splitNl cs with
      | [] => [[c]]
      | l :: ls => (c :: l) :: ls

/-- JS `Array.prototype.join(sep)`: the separator goes between consecutive
elements, `[]` joins to `""`. -/
def joinSep (sep : String) : List String → String
  | [] => ""
  | [t] => t
  | t :: ts => t ++ sep ++ joinSep sep ts

/-- `format(sql)`: split on `"\n"`, drop the lines that are entirely
whitespace (`/^\s*$/`), take the minimum leading-whitespace width of the
remaining lines (`p.length - p.trimStart().length`), slice that many
characters off every remaining line and re-join with `"\n"`.  When every line
is blank the pieces list is empty and the join yields `""` (in JS,
`Math.min()` of no arguments is `Infinity`, and mapping `slice` over the empty
list ignores it).  JS `\s` also matches some exotic Unicode spaces; the model
uses ASCII whitespace. -/
def format (sqlText : String) : String :=
  let pieces := (splitNl sqlText.data).filter fun p => !p.all Char.isWhitespace
  match (pieces.map fun p => (p.takeWhile Char.isWhitespace).length).min? with
  | none => ""
  | some leadingSpace => joinSep "\n" (pieces.map fun p => (p.drop leadingSpace).asString)

/-- `identifier(value)`. -/
def identifier (value : String) : JSVal := .boxIdentifier value

/-- `list(items, separator = ", ")`. -/
def list (items : List JSVal) (separator : String := ", ") : JSVal :=
  .boxList items separator

/-- `identifiers(values, separator?)`. -/
def identifiers (values : List String) (separator : String := ", ") : JSVal :=
  list (values.map identifier) separator

/-- The source's `unsafe(value)` constructor (that word is a Lean keyword). -/
def rawValue (value : JSVal) : JSVal := .boxRaw value

/-- `subsql(fragments, ...params)`: the sub-templater entry point handed to
callable parameters; boxes the fragment sequence without evaluating it. -/
def subsql (fragments : List String) (params : List JSVal) : JSVal :=
  .boxSubsql fragments params

/-- `template(fragments, ...args)` returns the callable `(fn) => fn(fragments,
...args)`; applied to `subsql` it yields `subsql fragments args`, which is how
`func` models callables. -/
def template (fragments : List String) (args : List JSVal) : JSVal :=
  .func (subsql fragments args)

/-- `sql(fragments, ...args)`: process with the cursor starting at 1, then
apply `format` to the text (once), passing `values` through unchanged.  The
`Array.isArray` guard (`MalformedInvocation`) cannot fire in the typed
model. -/
def sql (fragments : List String) (args : List JSVal) :
    Except SqlError SqlQueryObject :=
  match process fragments args 1 with
  | .error e => .error e
  | .ok (t, vs, _) => .ok { text := format t, values := vs }

/-- Unfolding of `sql` on a successful processing run. -/
theorem sql_of_process : ∀ fragments args t vs i2,
    process fragments args 1 = .ok (t, vs, i2) →
    sql fragments args = .ok { text := format t, values := vs } :=
  fun fragments args t vs i2 h => by simp [sql, h]

/-!
## Placeholder bookkeeping

`process` builds its text by appending fragments, separators, escaped
identifiers, raw payloads, and placeholder tokens `"$" ++ toString index`.
To state the numbering invariant we record that build plan as a token list:
`renderToks` recovers exactly the string `process` built, and `phsOf` lists
the emitted placeholder indices in order of emission. -/
inductive Tok where
  | txt : String → Tok
  | ph : Nat → Tok

def renderToks : List Tok → String
  | [] => ""
  | .txt s :: ts => s ++ renderToks ts
  | .ph n :: ts => ("$" ++ toString n) ++ renderToks ts

def phsOf (toks : List Tok) : List Nat :=
  toks.filterMap fun t => match t with | .ph n => some n | .txt _ => none

theorem renderToks_append (a b : List Tok) :
    renderToks (a ++ b) = renderToks a ++ renderToks b := by
  induction a with
  | nil => simp [renderToks]
  | cons t ts ih =>
    cases t <;> simp [renderToks, ih, String.append_assoc]

theorem phsOf_append (a b : List Tok) : phsOf (a ++ b) = phsOf a ++ phsOf b := by
  simp [phsOf]

/-- A successful run of the processor starting at cursor `i`: it ended at
cursor `i + vs.length`, and its text renders a token list whose placeholder
indices are exactly `i, i+1, ..., i + vs.length - 1` in order. -/
def GoodRun (t : String) (vs : List JSVal) (i i2 : Nat) : Prop :=
  i2 = i + vs.length ∧
    ∃ toks, renderToks toks = t ∧ phsOf toks = List.range' i vs.length

theorem range'_add_append (i m n : Nat) :
    List.range' i m ++ List.range' (i + m) n = List.range' i (m + n) := by
  simp [Nat.add_comm]

theorem GoodRun.text (s : String) (i : Nat) : GoodRun s [] i i := by
  refine ⟨by simp, [.txt s], ?_, by simp [phsOf]⟩
  simp [renderToks]

theorem GoodRun.ph (p : JSVal) (i : Nat) :
    GoodRun ("$" ++ toString i) [p] i (i + 1) := by
  refine ⟨by simp, [.ph i], ?_, ?_⟩
  · simp [renderToks]
  · simp [phsOf, List.range']

theorem GoodRun.append {t1 t2 : String} {vs1 vs2 : List JSVal} {i j k : Nat}
    (h1 : GoodRun t1 vs1 i j) (h2 : GoodRun t2 vs2 j k) :
    GoodRun (t1 ++ t2) (vs1 ++ vs2) i k := by
  obtain ⟨hj, toks1, hr1, hp1⟩ := h1
  obtain ⟨hk, toks2, hr2, hp2⟩ := h2
  subst hj hk
  refine ⟨by simp [Nat.add_assoc], toks1 ++ toks2, ?_, ?_⟩
  · simp [renderToks_append, hr1, hr2]
  · rw [phsOf_append, hp1, hp2, List.length_append, range'_add_append]

theorem GoodRun.append_sep {t1 t2 : String} {s : String} {vs1 vs2 : List JSVal}
    {i j k : Nat} (h1 : GoodRun t1 vs1 i j) (h2 : GoodRun t2 vs2 j k) :
    GoodRun (t1 ++ s ++ t2) (vs1 ++ vs2) i k := by
  have hm : GoodRun (t1 ++ s) (vs1 ++ []) i j := h1.append (GoodRun.text s j)
  rw [List.append_nil] at hm
  exact hm.append h2

/-- Joint invariant of one recursive expansion: every successful run of
`processParam` / `processItems` / `process` is a `GoodRun` — the cursor
advances by exactly the number of values pushed, and the placeholder tokens
emitted into the text are exactly the consecutive indices starting at the
entry cursor, in order. -/
theorem good_all :
    (∀ param index t vs i2,
        processParam param index = .ok (t, vs, i2) → GoodRun t vs index i2) ∧
    (∀ items sep index t vs i2,
        processItems items sep index = .ok (t, vs, i2) → GoodRun t vs index i2) ∧
    (∀ fragments params index t vs i2,
        process fragments params index = .ok (t, vs, i2) → GoodRun t vs index i2) := by
  refine processParam.mutual_induct
    (fun param index => ∀ t vs i2,
        processParam param index = .ok (t, vs, i2) → GoodRun t vs index i2)
    (fun items sep index => ∀ t vs i2,
        processItems items sep index = .ok (t, vs, i2) → GoodRun t vs index i2)
    (fun fragments params index => ∀ t vs i2,
        process fragments params index = .ok (t, vs, i2) → GoodRun t vs index i2)
    ?_ ?_ ?_ ?_ ?_ ?_ ?_ ?_ ?_ ?_ ?_ ?_ ?_ ?_ ?_ ?_ ?_ ?_ ?_
  · -- callable returning a subsql box whose processing fails
    intro index fragments params e hp _ t vs i2 h
    simp [processParam, hp] at h
  · -- callable returning a subsql box whose processing succeeds
    intro index fragments params t vs snd hp ih t' vs' i2 h
    simp [processParam, hp] at h
    obtain ⟨ht, hvs, hi⟩ := h
    subst ht hvs hi
    exact ⟨rfl, (ih t vs snd hp).2⟩
  · -- callable returning anything that is not a subsql box
    intro index r hne ih t vs i2 h
    simp only [processParam] at h
    exact ih t vs i2 h
  · -- identifier box
    intro index v t vs i2 h
    simp [processParam] at h
    obtain ⟨ht, hvs, hi⟩ := h
    subst ht hvs hi
    exact GoodRun.text _ _
  · -- list box
    intro index items sep ih t vs i2 h
    simp only [processParam] at h
    exact ih t vs i2 h
  · -- raw box
    intro index v t vs i2 h
    simp [processParam] at h
    obtain ⟨ht, hvs, hi⟩ := h
    subst ht hvs hi
    exact GoodRun.text _ _
  · -- literal leaf
    intro index p _ _ _ _ hlit t vs i2 h
    simp [processParam, hlit] at h
    obtain ⟨ht, hvs, hi⟩ := h
    subst ht hvs hi
    exact GoodRun.ph _ _
  · -- unrecognized parameter (cannot succeed)
    intro index p _ _ _ _ hlit t vs i2 h
    simp [processParam, hlit] at h
  · -- empty item list
    intro sep index t vs i2 h
    simp [processItems] at h
    obtain ⟨ht, hvs, hi⟩ := h
    subst ht hvs hi
    exact GoodRun.text _ _
  · -- singleton item list
    intro sep index x ih t vs i2 h
    simp only [processItems] at h
    exact ih t vs i2 h
  · -- longer item list, head item fails
    intro sep index x rest _ e hx _ t vs i2 h
    simp [processItems, hx] at h
  · -- longer item list, rest fails
    intro sep index x rest _ t0 vs0 snd hx e hrest _ _ t vs i2 h
    simp [processItems, hx, hrest] at h
  · -- longer item list, both succeed
    intro sep index x rest _ t0 vs0 snd hx t2 vs2 i3 hrest ihx ihrest t vs i2 h
    simp [processItems, hx, hrest] at h
    obtain ⟨ht, hvs, hi⟩ := h
    subst ht hvs hi
    exact (ihx t0 vs0 snd hx).append_sep (ihrest t2 vs2 i3 hrest)
  · -- no fragments at all
    intro params index t vs i2 h
    simp [process] at h
    obtain ⟨ht, hvs, hi⟩ := h
    subst ht hvs hi
    exact GoodRun.text _ _
  · -- final fragment, no parameters left
    intro index f t vs i2 h
    simp [process] at h
    obtain ⟨ht, hvs, hi⟩ := h
    subst ht hvs hi
    exact GoodRun.text _ _
  · -- final fragment, leftover parameters (cannot succeed)
    intro index f p ps t vs i2 h
    simp [process] at h
  · -- two or more fragments, parameter fails
    intro params index f f2 rest e hp _ t vs i2 h
    rw [List.headD_eq_head?_getD] at hp
    simp [process, hp] at h
  · -- two or more fragments, rest of the walk fails
    intro params index f f2 rest t0 vs0 snd hp e hrest _ _ t vs i2 h
    rw [List.headD_eq_head?_getD] at hp
    simp [process, hp, hrest] at h
  · -- two or more fragments, both succeed
    intro params index f f2 rest t0 vs0 snd hp t2 vs2 i3 hrest ihp ihrest t vs i2 h
    rw [List.headD_eq_head?_getD] at hp ihp
    simp [process, hp, hrest] at h
    obtain ⟨ht, hvs, hi⟩ := h
    subst ht hvs hi
    have hf : GoodRun (f ++ t0) ([] ++ vs0) index snd :=
      (GoodRun.text f index).append (ihp t0 vs0 snd hp)
    rw [List.nil_append] at hf
    exact hf.append (ihrest t2 vs2 i3 hrest)

theorem join_cons (s : String) (l : List String) :
    String.join (s :: l) = s ++ String.join l := by
  simp [String.join_eq]; rfl

/-- The escaping step as the spec words it, independent of the
implementation: every embedded double-quote character is doubled, character
by character. -/
def doubleQuotesSpec : List Char → String
  | [] => ""
  | c :: cs => (if c = '"' then "\"\"" else String.singleton c) ++ doubleQuotesSpec cs

theorem join_map_doubleQuotes (l : List Char) :
    String.join (l.map fun c => if c = '"' then "\"\"" else String.singleton c) =
      doubleQuotesSpec l := by
  induction l with
  | nil => rfl
  | cons c cs ih => simp [join_cons, ih, doubleQuotesSpec]

/-- C2: `escapeIdentifier raw` is `raw` with every embedded double quote
doubled, wrapped in one pair of double quotes; on `accounts " --` it yields
`"accounts "" --"`; and an Identifier parameter appends exactly the escaped
text, consumes no placeholder index and appends nothing to the values. -/
theorem escapeIdentifier_spec :
    (∀ raw : String, escapeIdentifier raw = "\"" ++ doubleQuotesSpec raw.data ++ "\"") ∧
    escapeIdentifier "accounts \" --" = "\"accounts \"\" --\"" ∧
    (∀ v i, processParam (.boxIdentifier v) i = .ok (escapeIdentifier v, [], i)) := by
  refine ⟨fun raw => ?_, by decide, fun v i => by simp [processParam]⟩
  simp only [escapeIdentifier, join_map_doubleQuotes]

/-- C8: a raw ("unsafe") parameter splices the JS string coercion of its
payload into the text verbatim — for a string payload the string itself,
unescaped — pushes no value and leaves the placeholder cursor unchanged. -/
theorem rawValue_spec :
    (∀ v i, processParam (.boxRaw v) i = .ok (jsToString v, [], i)) ∧
    (∀ s, jsToString (.str s) = s) :=
  ⟨fun v i => by simp [processParam], fun s => rfl⟩

/-- C10: the list constructor's separator defaults to the two-character
string comma-space: `list items` with the separator omitted is the same value
as `list items ", "`. -/
theorem list_default_separator :
    ∀ items, list items = list items ", " ∧ list items = JSVal.boxList items ", " :=
  fun items => ⟨rfl, rfl⟩

/-- C4: `isLiteral` accepts exactly strings, numbers, booleans, null,
undefined, dates and binary buffers/views; a parameter that is not callable,
not one of the recognized box kinds and not such a literal is rejected with
`UnsupportedValueType` — in particular plain objects and bare arrays are
rejected, not stringified. -/
theorem isLiteral_spec :
    (∀ v, isLiteral v = true ↔
      ((∃ s, v = .str s) ∨ (∃ n, v = .num n) ∨ (∃ b, v = .bool b) ∨
        v = .null ∨ v = .undef ∨ (∃ d, v = .date d) ∨
        (∃ bs, v = .buffer bs) ∨ (∃ bs, v = .view bs))) ∧
    (∀ v i, (∀ r, v ≠ .func r) → (∀ s, v ≠ .boxIdentifier s) →
      (∀ xs s, v ≠ .boxList xs s) → (∀ u, v ≠ .boxRaw u) →
      isLiteral v = false → processParam v i = .error (.unsupportedValueType v)) ∧
    (∀ i, processParam .obj i = .error (.unsupportedValueType .obj)) ∧
    (∀ xs i, processParam (.arr xs) i = .error (.unsupportedValueType (.arr xs))) := by
  refine ⟨fun v => ?_, fun v i h1 h2 h3 h4 hl => ?_,
    fun i => by simp [processParam, isLiteral],
    fun xs i => by simp [processParam, isLiteral]⟩
  · cases v <;> simp [isLiteral]
  · cases v with
    | func r => exact absurd rfl (h1 r)
    | boxIdentifier s => exact absurd rfl (h2 s)
    | boxList xs s => exact absurd rfl (h3 xs s)
    | boxRaw u => exact absurd rfl (h4 u)
    | boxSubsql f p => simp [processParam, isLiteral]
    | obj => simp [processParam, isLiteral]
    | arr xs => simp [processParam, isLiteral]
    | str s => simp [isLiteral] at hl
    | num n => simp [isLiteral] at hl
    | bool b => simp [isLiteral] at hl
    | null => simp [isLiteral] at hl
    | undef => simp [isLiteral] at hl
    | date d => simp [isLiteral] at hl
    | buffer bs => simp [isLiteral] at hl
    | view bs => simp [isLiteral] at hl

/-- Witness for `isLiteral_spec`: the rejection branch at the concrete plain
object. -/
theorem isLiteral_spec_witness :
    isLiteral JSVal.obj = false ∧
    processParam JSVal.obj 1 = .error (.unsupportedValueType .obj) :=
  ⟨rfl, isLiteral_spec.2.1 JSVal.obj 1 (fun r h => nomatch h) (fun s h => nomatch h)
    (fun xs s h => nomatch h) (fun u h => nomatch h) rfl⟩

/-- The item walk as the spec words the List rule: process each item in
order, collecting the per-item texts separately (the separator is then
interposed between consecutive texts). -/
def processEachItem : List JSVal → Nat → Except SqlError (List String × List JSVal × Nat)
  | [], index => .ok ([], [], index)
  | x :: rest, index =>
    match processParam x index with
    | .error e => .error e
    | .ok (t, vs, i2) =>
      match processEachItem rest i2 with
      | .error e => .error e
      | .ok (ts, vs2, i3) => .ok (t :: ts, vs ++ vs2, i3)

theorem processEachItem_length :
    ∀ (items : List JSVal) (index : Nat) ts vs i2,
      processEachItem items index = .ok (ts, vs, i2) → ts.length = items.length := by
  intro items
  induction items with
  | nil =>
    intro index ts vs i2 h
    simp [processEachItem] at h
    simp [← h.1]
  | cons x rest ih =>
    intro index ts vs i2 h
    cases hx : processParam x index with
    | error e => simp [processEachItem, hx] at h
    | ok r =>
      obtain ⟨t, vs0, j⟩ := r
      cases hr : processEachItem rest j with
      | error e => simp [processEachItem, hx, hr] at h
      | ok r2 =>
        obtain ⟨ts2, vs2, k⟩ := r2
        simp [processEachItem, hx, hr] at h
        obtain ⟨hts, hvs, hk⟩ := h
        simp [← hts, ih j ts2 vs2 k hr]

theorem processEachItem_cons (x : JSVal) (rest : List JSVal) (index : Nat) :
    processEachItem (x :: rest) index =
      match processParam x index with
      | .error e => .error e
      | .ok (t, vs, i2) =>
        match processEachItem rest i2 with
        | .error e => .error e
        | .ok (ts, vs2, i3) => .ok (t :: ts, vs ++ vs2, i3) := rfl

theorem processItems_eq (items : List JSVal) : ∀ sep index,
    processItems items sep index =
      (processEachItem items index).map fun r => (joinSep sep r.1, r.2.1, r.2.2) := by
  induction items with
  | nil => intro sep index; simp [processItems, processEachItem, joinSep, Except.map]
  | cons x rest ih =>
    intro sep index
    cases rest with
    | nil =>
      cases hx : processParam x index with
      | error e => simp [processItems, processEachItem, hx, Except.map]
      | ok r =>
        obtain ⟨t, vs, j⟩ := r
        simp [processItems, processEachItem, hx, joinSep, Except.map]
    | cons y rest2 =>
      cases hx : processParam x index with
      | error e => simp [processItems, processEachItem, hx, Except.map]
      | ok r =>
        obtain ⟨t, vs, j⟩ := r
        have hih := ih sep j
        cases hr : processEachItem (y :: rest2) j with
        | error e =>
          rw [hr] at hih
          simp only [Except.map] at hih
          have hR : processEachItem (x :: y :: rest2) index = .error e := by
            rw [processEachItem_cons]
            simp [hx, hr]
          simp [processItems, hx, hih, hR, Except.map]
        | ok r2 =>
          obtain ⟨ts, vs2, k⟩ := r2
          have hlen := processEachItem_length (y :: rest2) j ts vs2 k hr
          cases ts with
          | nil => simp at hlen
          | cons t2 ts2 =>
            rw [hr] at hih
            simp only [Except.map] at hih
            have hR : processEachItem (x :: y :: rest2) index =
                .ok (t :: t2 :: ts2, vs ++ vs2, k) := by
              rw [processEachItem_cons]
              simp [hx, hr]
            simp [processItems, hx, hih, hR, joinSep, Except.map]

/-- C5: a List parameter of N items with separator S processes each item
recursively in order and interposes S verbatim between consecutive item
texts: the result is the separator-join of the per-item texts, whose count
equals N (so S appears exactly N-1 times by construction of `joinSep`); with
zero items the text is empty and with one item it is that item's text alone —
no separator in either case. -/
theorem list_separator_spec :
    ∀ items sep index,
      (processItems items sep index =
        (processEachItem items index).map fun r => (joinSep sep r.1, r.2.1, r.2.2)) ∧
      (∀ ts vs i2, processEachItem items index = .ok (ts, vs, i2) →
        ts.length = items.length) ∧
      (∀ x, processItems [x] sep index = processParam x index) ∧
      processItems [] sep index = .ok ("", [], index) :=
  fun items sep index =>
    ⟨processItems_eq items sep index,
     fun ts vs i2 h => processEachItem_length items index ts vs i2 h,
     fun x => by simp [processItems],
     by simp [processItems]⟩

/-- Witness for `list_separator_spec`: the length clause at a concrete
two-item list. -/
theorem list_separator_spec_witness :
    processEachItem [JSVal.num 7, JSVal.num 8] 1 =
      .ok (["$1", "$2"], [JSVal.num 7, JSVal.num 8], 3) ∧
    (["$1", "$2"] : List String).length = 2 := by
  have h : processEachItem [JSVal.num 7, JSVal.num 8] 1 =
      .ok (["$1", "$2"], [JSVal.num 7, JSVal.num 8], 3) := by
    simp [processEachItem, processParam, isLiteral]
    decide
  exact ⟨h, (list_separator_spec [JSVal.num 7, JSVal.num 8] ", " 1).2.1 _ _ _ h⟩

/-- C1: for every top-level composition that returns successfully, the
placeholder tokens the processor emitted are contiguous starting at `$1`:
there is a token list that renders to the processed text (to which the
cosmetic `format` pass is then applied), whose placeholder indices are
exactly `1, 2, ..., values.length` in order of emission — contiguous from 1,
without duplicates, and as many as there are values, so `values[i]` is the
value bound by placeholder `$(i+1)`, across arbitrarily nested subsql
bundles and lists. -/
theorem placeholder_invariant :
    ∀ fragments args q, sql fragments args = .ok q →
      ∃ toks, q.text = format (renderToks toks) ∧
        phsOf toks = List.range' 1 q.values.length ∧
        (phsOf toks).Nodup ∧ (phsOf toks).length = q.values.length := by
  intro fragments args q h
  cases hp : process fragments args 1 with
  | error e => simp [sql, hp] at h
  | ok r =>
    obtain ⟨t, vs, i2⟩ := r
    simp [sql, hp] at h
    obtain ⟨hcur, toks, hrend, hph⟩ := good_all.2.2 fragments args 1 t vs i2 hp
    subst h
    refine ⟨toks, by simp [hrend], by simp [hph], ?_, by simp [hph]⟩
    rw [hph]
    exact List.nodup_range' 1 vs.length

/-- Witness for `placeholder_invariant` at a concrete one-parameter
composition. -/
theorem placeholder_invariant_witness :
    sql ["a ", ""] [JSVal.num 5] = .ok ⟨"a $1", [JSVal.num 5]⟩ ∧
    ∃ toks, ("a $1" : String) = format (renderToks toks) ∧
      phsOf toks = List.range' 1 1 ∧ (phsOf toks).Nodup ∧ (phsOf toks).length = 1 := by
  have h : sql ["a ", ""] [JSVal.num 5] = .ok ⟨"a $1", [JSVal.num 5]⟩ := by
    have hp : process ["a ", ""] [JSVal.num 5] 1 = .ok ("a $1", [JSVal.num 5], 2) :=
      (fuel_sound 30).2.2 _ _ _ _ rfl
    rw [sql_of_process _ _ _ _ _ hp]
    have hf : format "a $1" = "a $1" := by decide
    rw [hf]
  exact ⟨h, placeholder_invariant _ _ _ h⟩

/-- C3: a callable parameter is invoked with the sub-templater entry point;
when its result is a subsql bundle, the bundle's fragments and parameters are
processed with the current cursor (continuing, not resetting, the numbering:
the splice starts at `i` and advances the cursor by the number of values it
contributed), and its text and values are spliced in; when the result is not
a bundle, `processParam` recurses on the result.  Composing with the callable
modelling `(sql) => sql\`ANY(${123}, ${456})\`` yields text ending in
`ANY($1, $2)` with values `[123, 456]`. -/
theorem callable_spec :
    (∀ fragments params i t vs i2, process fragments params i = .ok (t, vs, i2) →
      processParam (.func (.boxSubsql fragments params)) i = .ok (t, vs, i + vs.length)) ∧
    (∀ fragments params i e, process fragments params i = .error e →
      processParam (.func (.boxSubsql fragments params)) i = .error e) ∧
    (∀ r i, (∀ fragments params, r ≠ .boxSubsql fragments params) →
      processParam (.func r) i = processParam r i) ∧
    sql ["SELECT * FROM accounts WHERE id = ", ""]
        [.func (.boxSubsql ["ANY(", ", ", ")"] [.num 123, .num 456])] =
      .ok { text := "SELECT * FROM accounts WHERE id = ANY($1, $2)",
            values := [.num 123, .num 456] } := by
  refine ⟨fun fragments params i t vs i2 h => by simp [processParam, h],
    fun fragments params i e h => by simp [processParam, h],
    fun r i hne => by simp only [processParam],
    ?_⟩
  have hp : process ["SELECT * FROM accounts WHERE id = ", ""]
      [.func (.boxSubsql ["ANY(", ", ", ")"] [.num 123, .num 456])] 1 =
      .ok ("SELECT * FROM accounts WHERE id = ANY($1, $2)", [.num 123, .num 456], 3) :=
    (fuel_sound 30).2.2 _ _ _ _ rfl
  rw [sql_of_process _ _ _ _ _ hp]
  have hf : format "SELECT * FROM accounts WHERE id = ANY($1, $2)" =
      "SELECT * FROM accounts WHERE id = ANY($1, $2)" := by decide
  rw [hf]

/-- Witness for `callable_spec`: the splice clause at the concrete
`ANY(${123}, ${456})` bundle, entered with cursor 1. -/
theorem callable_spec_witness :
    process ["ANY(", ", ", ")"] [JSVal.num 123, JSVal.num 456] 1 =
      .ok ("ANY($1, $2)", [JSVal.num 123, JSVal.num 456], 3) ∧
    processParam (.func (.boxSubsql ["ANY(", ", ", ")"] [JSVal.num 123, JSVal.num 456])) 1 =
      .ok ("ANY($1, $2)", [JSVal.num 123, JSVal.num 456], 3) ∧
    processParam (.func (.boxIdentifier "t")) 1 = processParam (.boxIdentifier "t") 1 := by
  have h : process ["ANY(", ", ", ")"] [JSVal.num 123, JSVal.num 456] 1 =
      .ok ("ANY($1, $2)", [JSVal.num 123, JSVal.num 456], 3) :=
    (fuel_sound 30).2.2 _ _ _ _ rfl
  exact ⟨h, callable_spec.1 _ _ _ _ _ _ h,
    callable_spec.2.2.1 (.boxIdentifier "t") 1 (fun fragments params hne => nomatch hne)⟩

/-- The fragment/parameter pairing contract
(`len(fragments) = len(params) + 1`), enforced hereditarily through
callables, list items and subsql bundles. -/
def wfParam : JSVal → Bool
  | .func r => wfParam r
  | .boxList items _ => items.attach.all fun x => wfParam x.1
  | .boxSubsql fragments params =>
    (fragments.length == params.length + 1) &&
      params.attach.all fun x => wfParam x.1
  | _ => true
termination_by v => sizeOf v
decreasing_by
  all_goals simp_wf
  · have := List.sizeOf_lt_of_mem x.2
    omega
  · have := List.sizeOf_lt_of_mem x.2
    omega

theorem wfParam_func (r : JSVal) : wfParam (.func r) = wfParam r := by
  simp [wfParam]

theorem wfParam_list_iff (items : List JSVal) (sep : String) :
    wfParam (.boxList items sep) = true ↔ ∀ x ∈ items, wfParam x = true := by
  simp [wfParam]

theorem wfParam_subsql_iff (fragments : List String) (params : List JSVal) :
    wfParam (.boxSubsql fragments params) = true ↔
      fragments.length = params.length + 1 ∧ ∀ x ∈ params, wfParam x = true := by
  simp [wfParam]

/-- Under the hereditary pairing contract, no run of the processor — at any
nesting depth — produces a `ParameterCountMismatch` error. -/
theorem nopcm_all :
    (∀ param index, wfParam param = true →
      ∀ left, processParam param index ≠ .error (.parameterCountMismatch left)) ∧
    (∀ items sep index, (∀ x ∈ items, wfParam x = true) →
      ∀ left, processItems items sep index ≠ .error (.parameterCountMismatch left)) ∧
    (∀ fragments params index, fragments.length = params.length + 1 →
      (∀ x ∈ params, wfParam x = true) →
      ∀ left, process fragments params index ≠ .error (.parameterCountMismatch left)) := by
  refine processParam.mutual_induct
    (fun param index => wfParam param = true →
      ∀ left, processParam param index ≠ .error (.parameterCountMismatch left))
    (fun items sep index => (∀ x ∈ items, wfParam x = true) →
      ∀ left, processItems items sep index ≠ .error (.parameterCountMismatch left))
    (fun fragments params index => fragments.length = params.length + 1 →
      (∀ x ∈ params, wfParam x = true) →
      ∀ left, process fragments params index ≠ .error (.parameterCountMismatch left))
    ?_ ?_ ?_ ?_ ?_ ?_ ?_ ?_ ?_ ?_ ?_ ?_ ?_ ?_ ?_ ?_ ?_ ?_ ?_
  · -- callable returning a subsql box whose processing fails
    intro index fragments params e hp ih hwf left heq
    rw [wfParam_func, wfParam_subsql_iff] at hwf
    simp [processParam, hp] at heq
    exact ih hwf.1 hwf.2 left (by rw [hp, heq])
  · -- callable returning a subsql box whose processing succeeds
    intro index fragments params t vs snd hp _ _ left heq
    simp [processParam, hp] at heq
  · -- callable returning anything that is not a subsql box
    intro index r hne ih hwf left
    simp only [processParam]
    rw [wfParam_func] at hwf
    exact ih hwf left
  · -- identifier box
    intro index v _ left heq
    simp [processParam] at heq
  · -- list box
    intro index items sep ih hwf left
    simp only [processParam]
    rw [wfParam_list_iff] at hwf
    exact ih hwf left
  · -- raw box
    intro index v _ left heq
    simp [processParam] at heq
  · -- literal leaf
    intro index p _ _ _ _ hlit _ left heq
    simp [processParam, hlit] at heq
  · -- unrecognized parameter: the error raised is UnsupportedValueType
    intro index p _ _ _ _ hlit _ left heq
    simp [processParam, hlit] at heq
  · -- empty item list
    intro sep index _ left heq
    simp [processItems] at heq
  · -- singleton item list
    intro sep index x ih hwf left
    simp only [processItems]
    exact ih (hwf x (by simp)) left
  · -- longer item list, head item fails
    intro sep index x rest _ e hx ih hwf left heq
    simp [processItems, hx] at heq
    exact ih (hwf x (by simp)) left (by rw [hx, heq])
  · -- longer item list, rest fails
    intro sep index x rest _ t0 vs0 snd hx e hrest _ ihrest hwf left heq
    simp [processItems, hx, hrest] at heq
    refine ihrest (fun y hy => hwf y (by simp [hy])) left (by rw [hrest, heq])
  · -- longer item list, both succeed
    intro sep index x rest _ t0 vs0 snd hx t2 vs2 i3 hrest _ _ _ left heq
    simp [processItems, hx, hrest] at heq
  · -- no fragments at all: excluded by the pairing contract
    intro params index hc
    simp at hc
  · -- final fragment, no parameters left
    intro index f _ _ left heq
    simp [process] at heq
  · -- final fragment with leftover parameters: excluded by the contract
    intro index f p ps hc
    simp at hc
  · -- two or more fragments, parameter fails
    intro params index f f2 rest e hp ih hc hall left heq
    rw [List.headD_eq_head?_getD] at hp ih
    simp [process, hp] at heq
    cases params with
    | nil => simp at hc
    | cons ph pt =>
      exact ih (hall ph (by simp)) left (by rw [hp, heq])
  · -- two or more fragments, rest of the walk fails
    intro params index f f2 rest t0 vs0 snd hp e hrest _ ihrest hc hall left heq
    rw [List.headD_eq_head?_getD] at hp
    simp [process, hp, hrest] at heq
    cases params with
    | nil => simp at hc
    | cons ph pt =>
      have hc2 : (f2 :: rest).length = pt.length + 1 := by simp_all
      refine ihrest hc2 (fun y hy => hall y (List.mem_cons_of_mem ph (by simpa using hy)))
        left (by rw [hrest, heq])
  · -- two or more fragments, both succeed
    intro params index f f2 rest t0 vs0 snd hp t2 vs2 i3 hrest _ _ _ _ left heq
    rw [List.headD_eq_head?_getD] at hp
    simp [process, hp, hrest] at heq

/-- With a nonempty fragment array and at least as many parameters as
fragments, `process` always fails: with `ParameterCountMismatch` at the final
fragment, unless an earlier parameter is rejected first. -/
theorem process_overflow :
    ∀ (fragments : List String) params index, fragments ≠ [] →
      fragments.length ≤ params.length →
      (∃ left, process fragments params index = .error (.parameterCountMismatch left)) ∨
      (∃ v, process fragments params index = .error (.unsupportedValueType v)) := by
  intro fragments
  induction fragments with
  | nil => intro params index hne; exact absurd rfl hne
  | cons f rest ih =>
    intro params index _ hlen
    cases rest with
    | nil =>
      cases params with
      | nil => simp at hlen
      | cons p ps => exact .inl ⟨p :: ps, by simp [process]⟩
    | cons f2 rest2 =>
      cases hx : processParam (params.headD .undef) index with
      | error e =>
        rw [List.headD_eq_head?_getD] at hx
        cases e with
        | parameterCountMismatch l => exact .inl ⟨l, by simp [process, hx]⟩
        | unsupportedValueType v => exact .inr ⟨v, by simp [process, hx]⟩
      | ok r =>
        obtain ⟨t, vs, j⟩ := r
        rw [List.headD_eq_head?_getD] at hx
        have hlen2 : (f2 :: rest2).length ≤ params.tail.length := by
          cases params with
          | nil => simp at hlen
          | cons p ps => simp at hlen ⊢; omega
        rcases ih params.tail j (by simp) hlen2 with ⟨l, hl⟩ | ⟨v, hv⟩
        · exact .inl ⟨l, by simp [process, hx, hl]⟩
        · exact .inr ⟨v, by simp [process, hx, hv]⟩

/-- C6 (amended): when the fragment array is nonempty and the parameters
outnumber the slots (`fragments.length ≤ params.length`), processing always
fails — with `ParameterCountMismatch` at the final fragment unless an earlier
parameter is itself rejected with `UnsupportedValueType` first; and when the
pairing contract `len(fragments) = len(params) + 1` is respected at every
nesting level, `ParameterCountMismatch` is never raised. -/
theorem parameter_count_spec :
    (∀ (fragments : List String) params index, fragments ≠ [] →
      fragments.length ≤ params.length →
      (∃ left, process fragments params index = .error (.parameterCountMismatch left)) ∨
      (∃ v, process fragments params index = .error (.unsupportedValueType v))) ∧
    (∀ (fragments : List String) params index, fragments.length = params.length + 1 →
      (∀ x ∈ params, wfParam x = true) →
      ∀ left, process fragments params index ≠ .error (.parameterCountMismatch left)) :=
  ⟨process_overflow, nopcm_all.2.2⟩

/-- Counterexample to C6 as stated: with no fragments at all there are at
least as many parameters as fragments, yet processing succeeds — the loop
body never runs, so the defensive check is never reached (reachable in JS as
`sql([], 1)`, since `[]` passes the `Array.isArray` guard). -/
theorem parameter_count_counterexample :
    ([] : List String).length ≤ [JSVal.num 1].length ∧
    process [] [JSVal.num 1] 1 = .ok ("", [], 1) :=
  ⟨by simp, by simp [process]⟩

/-- Witness for `parameter_count_spec` at concrete inputs: two fragments with
two literal parameters fail, and two fragments with the contractual single
parameter never raise the mismatch error. -/
theorem parameter_count_spec_witness :
    ((∃ left, process ["a", "b"] [JSVal.num 1, JSVal.num 2] 1 =
        .error (.parameterCountMismatch left)) ∨
      (∃ v, process ["a", "b"] [JSVal.num 1, JSVal.num 2] 1 =
        .error (.unsupportedValueType v))) ∧
    (∀ left, process ["a", "b"] [JSVal.num 1] 1 ≠
      .error (.parameterCountMismatch left)) := by
  constructor
  · exact parameter_count_spec.1 ["a", "b"] [JSVal.num 1, JSVal.num 2] 1 (by simp) (by simp)
  · refine parameter_count_spec.2 ["a", "b"] [JSVal.num 1] 1 (by simp) ?_
    intro x hx
    simp at hx
    subst hx
    simp [wfParam]

/-- The non-blank lines of a string, exactly as `format` computes them. -/
def nonBlankLines (s : String) : List (List Char) :=
  (splitNl s.data).filter fun p => !p.all Char.isWhitespace

/-- Leading-whitespace width of a line
(`p.length - p.trimStart().length`). -/
def leadCount (p : List Char) : Nat := (p.takeWhile Char.isWhitespace).length

/-- Modelled from the spec: the claim's reading of the formatter, in which
blank lines are ignored only when computing the minimum leading-whitespace
width but every line — blank ones included — is kept and stripped. -/
def formatClaimed (s : String) : String :=
  let lines := splitNl s.data
  let pieces := lines.filter fun p => !p.all Char.isWhitespace
  match (pieces.map fun p => (p.takeWhile Char.isWhitespace).length).min? with
  | none => joinSep "\n" (lines.map fun p => p.asString)
  | some w => joinSep "\n" (lines.map fun p => (p.drop w).asString)

/-- Counterexample to C7 as stated: `format` deletes blank lines outright
rather than merely ignoring them for the width computation — on `"a\n\nb"`
the code yields `"a\nb"` while the claimed reading keeps the blank line. -/
theorem format_counterexample :
    format "a\n\nb" = "a\nb" ∧ formatClaimed "a\n\nb" = "a\n\nb" ∧
    ("a\nb" : String) ≠ "a\n\nb" :=
  ⟨by decide, by decide, by decide⟩

theorem take_all_of_le_takeWhile {q : Char → Bool} :
    ∀ (l : List Char) (w : Nat), w ≤ (l.takeWhile q).length →
      (l.take w).all q = true := by
  intro l
  induction l with
  | nil =>
    intro w hw
    simp at hw
    subst hw
    simp
  | cons c cs ih =>
    intro w hw
    cases hq : q c with
    | false =>
      simp [List.takeWhile_cons, hq] at hw
      subst hw
      simp
    | true =>
      cases w with
      | zero => simp
      | succ w2 =>
        simp [List.takeWhile_cons, hq] at hw
        simp [List.take, hq, ih w2 (by omega)]

/-- C7 (amended): the formatter, applied exactly once to the processed text,
splits on line breaks, removes the blank lines, computes the minimum
leading-whitespace width over the remaining lines, and strips exactly that
many leading characters — all of them whitespace — from each remaining line;
the values list passes through `sql` unchanged. -/
theorem format_spec :
    (∀ s, format s =
      match ((nonBlankLines s).map leadCount).min? with
      | none => ""
      | some w => joinSep "\n" ((nonBlankLines s).map fun p => (p.drop w).asString)) ∧
    (∀ s w, ((nonBlankLines s).map leadCount).min? = some w →
      ∀ p ∈ nonBlankLines s, (p.take w).all Char.isWhitespace = true) ∧
    (∀ fragments args q, sql fragments args = .ok q →
      ∃ t vs i2, process fragments args 1 = .ok (t, vs, i2) ∧
        q.text = format t ∧ q.values = vs) := by
  refine ⟨fun s => rfl, fun s w hmin p hp => ?_, fun fragments args q h => ?_⟩
  · have hle : w ≤ leadCount p := by
      rw [List.min?_eq_some_iff'] at hmin
      exact hmin.2 (leadCount p) (List.mem_map_of_mem leadCount hp)
    exact take_all_of_le_takeWhile p w hle
  · cases hp : process fragments args 1 with
    | error e => simp [sql, hp] at h
    | ok r =>
      obtain ⟨t, vs, i2⟩ := r
      simp [sql, hp] at h
      subst h
      exact ⟨t, vs, i2, rfl, rfl, rfl⟩

/-- Witness for `format_spec`: the whitespace-stripping clause on a concrete
two-line indented string, and the pass-through clause on a concrete
composition. -/
theorem format_spec_witness :
    (((nonBlankLines "  a\n   b").map leadCount).min? = some 2 ∧
      "  a".data ∈ nonBlankLines "  a\n   b" ∧
      ("  a".data.take 2).all Char.isWhitespace = true) ∧
    (sql ["x"] [] = .ok ⟨"x", []⟩ ∧
      ∃ t vs i2, process ["x"] [] 1 = .ok (t, vs, i2) ∧
        ("x" : String) = format t ∧ ([] : List JSVal) = vs) := by
  have hmin : ((nonBlankLines "  a\n   b").map leadCount).min? = some 2 := by decide
  have hmem : "  a".data ∈ nonBlankLines "  a\n   b" := by decide
  have hsql : sql ["x"] [] = .ok ⟨"x", []⟩ := by
    have hp : process ["x"] ([] : List JSVal) 1 = .ok ("x", [], 1) :=
      (fuel_sound 30).2.2 _ _ _ _ rfl
    rw [sql_of_process _ _ _ _ _ hp]
    have hf : format "x" = "x" := by decide
    rw [hf]
  exact ⟨⟨hmin, hmem, format_spec.2.1 _ _ hmin _ hmem⟩, hsql, format_spec.2.2 _ _ _ hsql⟩

/-- Counterexample to C9 as stated: with a single indented fragment and zero
parameters, the composer's output text is the dedented fragment, not the
fragment concatenation itself. -/
theorem zero_params_counterexample :
    sql ["  SELECT 1"] [] = .ok { text := "SELECT 1", values := [] } ∧
    String.join ["  SELECT 1"] ≠ "SELECT 1" := by
  constructor
  · have hp : process ["  SELECT 1"] ([] : List JSVal) 1 = .ok ("  SELECT 1", [], 1) :=
      (fuel_sound 30).2.2 _ _ _ _ rfl
    rw [sql_of_process _ _ _ _ _ hp]
    have hf : format "  SELECT 1" = "SELECT 1" := by decide
    rw [hf]
  · decide

/-- C9 (amended): for a fragment sequence with zero parameters (a single
fragment, by the pairing contract), the composer's output text is the
formatter applied to the concatenation of the fragments — the concatenation
itself up to the cosmetic dedent — and the values list is empty. -/
theorem zero_params_spec :
    ∀ fragments : List String, fragments.length = 1 →
      sql fragments [] = .ok { text := format (String.join fragments), values := [] } := by
  intro fragments h
  match fragments, h with
  | [f], _ => simp [sql, process, join_cons, String.join]

/-- Witness for `zero_params_spec` at the concrete fragment `SELECT 1`. -/
theorem zero_params_spec_witness :
    sql ["SELECT 1"] [] = .ok { text := "SELECT 1", values := [] } := by
  rw [zero_params_spec ["SELECT 1"] rfl]
  simp only [Except.ok.injEq, SqlQueryObject.mk.injEq]
  exact ⟨by decide, trivial⟩
